import Mathlib

/-!
Shallow embedding of the meilisearch-schema crate:
`src/meilisearch-schema/src/position_map.rs` and
`src/meilisearch-schema/src/schema.rs`.

Machine integers: `FieldId` and `IndexedPos` are `u16` in the source; we model
them as `Nat` and write an explicit `% 65536` wherever the source performs a
narrowing `as u16` cast.  `usize` casts are widening and need no modular
reduction.  Rust's `BTreeMap<FieldId, IndexedPos>` is modelled as an
association list observed only through `get`/`insert`/`clear`/`extend`
(the map itself is never iterated by the source).  Rust's `HashSet` is
modelled as a duplicate-free list observed only through order-insensitive
operations (`contains`, `insert`, `clear`, `collect`).
-/

abbrev FieldId := Nat
abbrev IndexedPos := Nat

/-- Modelled from the spec: the error enum of the crate (its source file,
`lib.rs`, is not under `src/`).  Section 7 of the spec names a primary-key
conflict condition and an allocator-exhaustion condition. -/
inductive Error where
  | primaryKeyAlreadyPresent : Error
  | maxFieldsLimitExceeded : Error
deriving DecidableEq, Repr

abbrev SResult (α : Type) := Except Error α

instance {ε α : Type} [DecidableEq ε] [DecidableEq α] : DecidableEq (Except ε α)
  | Except.ok a, Except.ok b => decidable_of_iff (a = b) (by simp)
  | Except.ok _, Except.error _ => Decidable.isFalse (fun h => Except.noConfusion h)
  | Except.error _, Except.ok _ => Decidable.isFalse (fun h => Except.noConfusion h)
  | Except.error d, Except.error e => decidable_of_iff (d = e) (by simp)

/-- Modelled from the spec: the field interner `FieldsMap` (its source file
`fields_map.rs` is not under `src/`).  Identifiers are issued strictly
increasing from zero and never reused, so the identifier of a name is its
index in the insertion-ordered list of known names (spec section 4.1). -/
structure FieldsMap where
  names : List String
deriving DecidableEq, Repr

/-- Index of `name` in a list, counting from `k`; `none` when absent. -/
def fieldsMapIdAux (name : String) (k : Nat) : List String → Option FieldId
  | [] => Option.none
  | n :: rest => if n = name then Option.some k else fieldsMapIdAux name (k + 1) rest

/-- Modelled from the spec: `FieldsMap::id`, a pure lookup. -/
def FieldsMap.id (fm : FieldsMap) (name : String) : Option FieldId :=
  fieldsMapIdAux name 0 fm.names

/-- Modelled from the spec: `FieldsMap::name`, a pure lookup. -/
def FieldsMap.name (fm : FieldsMap) (id : FieldId) : Option String :=
  fm.names[id]?

/-- Modelled from the spec: `FieldsMap::insert` — idempotent, returns the
existing identifier if the name is known, otherwise allocates the next
sequential identifier; fails only on exhaustion of the `u16` identifier
space, with no partial mutation. -/
def FieldsMap.insert (fm : FieldsMap) (name : String) : SResult FieldId × FieldsMap :=
  match fm.id name with
  | Option.some i => (Except.ok i, fm)
  | Option.none =>
    if fm.names.length < 65536 then
      (Except.ok fm.names.length, ⟨fm.names ++ [name]⟩)
    else
      (Except.error Error.maxFieldsLimitExceeded, fm)

instance : Inhabited FieldsMap := ⟨⟨[]⟩⟩

/-! ## PositionMap (`position_map.rs`) -/

/-- Source: `position_map.rs` lines 6-10.  `pos_to_field : Vec<FieldId>` is a list;
`field_to_pos : BTreeMap<FieldId, IndexedPos>` is an association list. -/
structure PositionMap where
  pos_to_field : List FieldId
  field_to_pos : List (FieldId × IndexedPos)
deriving DecidableEq, Repr

instance : Inhabited PositionMap := ⟨⟨[], []⟩⟩

/-- Source: `BTreeMap::insert`: overwrite the value when the key is present,
otherwise add the binding. -/
def btreeInsert (m : List (FieldId × IndexedPos)) (k : FieldId) (v : IndexedPos) :
    List (FieldId × IndexedPos) :=
  if (m.lookup k).isSome then
    m.map (fun e => if e.1 = k then (k, v) else e)
  else
    m ++ [(k, v)]

/-- The sequence `pos_to_field.iter().enumerate().map(|(p, f)| (*f, IndexedPos(p as u16)))`
used both by `PositionMap::field_pos` (line 58-63) and by the reverse-map
rebuild inside `PositionMap::insert` (lines 29-35). -/
def enumPairs (l : List FieldId) : List (FieldId × IndexedPos) :=
  l.enum.map (fun e => (e.2, e.1 % 65536))

/-- Source: `field_to_pos.clear()` followed by `extend` of `enumPairs`
(`position_map.rs` lines 29-35): a fold of `BTreeMap::insert` starting from
the empty map. -/
def rebuildMap (l : List FieldId) : List (FieldId × IndexedPos) :=
  (enumPairs l).foldl (fun m e => btreeInsert m e.1 e.2) []

/-- Source: `PositionMap::len` (lines 45-47). -/
def PositionMap.len (m : PositionMap) : Nat :=
  m.pos_to_field.length

/-- Source: `PositionMap::push` (lines 39-43): append `id`, record its position
(`pos` is `len()` cast `as u16` on line 42, hence the `% 65536`). -/
def PositionMap.push (m : PositionMap) (id : FieldId) : PositionMap :=
  { pos_to_field := m.pos_to_field ++ [id],
    field_to_pos := btreeInsert m.field_to_pos id (m.pos_to_field.length % 65536) }

/-- Source: `PositionMap::insert` (lines 13-36).  If `id` is already positioned, it
is first removed (`Vec::remove`, a total `eraseIdx` here: the stored old
position is always in range in states the source can construct) and the
target is bumped by one if the removal happened strictly before it.  The
element is then inserted (`Vec::insert`) when the corrected position is
below the new length, else pushed; in the push branch the transient
`field_to_pos` write of `push` is immediately discarded by the rebuild of
lines 29-35, so only the append to `pos_to_field` survives. -/
def PositionMap.insert (m : PositionMap) (id : FieldId) (pos : IndexedPos) : PositionMap :=
  let r := match m.field_to_pos.lookup id with
    | Option.some old_pos =>
        (m.pos_to_field.eraseIdx old_pos, if old_pos < pos then pos + 1 else pos)
    | Option.none => (m.pos_to_field, pos)
  let l' := if r.2 < r.1.length then r.1.insertIdx r.2 id else r.1 ++ [id]
  { pos_to_field := l', field_to_pos := rebuildMap l' }

/-- Source: `PositionMap::field_to_pos` (lines 49-51). -/
def PositionMap.fieldToPos (m : PositionMap) (id : FieldId) : Option IndexedPos :=
  m.field_to_pos.lookup id

/-- Source: `PositionMap::pos_to_field` (lines 53-56); `pos.0 as usize` is a
widening cast. -/
def PositionMap.posToField (m : PositionMap) (pos : IndexedPos) : Option FieldId :=
  m.pos_to_field[pos]?

/-- Source: `PositionMap::field_pos` (lines 58-63). -/
def PositionMap.field_pos (m : PositionMap) : List (FieldId × IndexedPos) :=
  enumPairs m.pos_to_field

/-! ## Schema (`schema.rs`) -/

/-- Source: `schema.rs` lines 8-13. -/
inductive OptionAll (α : Type) where
  | all : OptionAll α
  | some : α → OptionAll α
  | none : OptionAll α
deriving DecidableEq, Repr

/-- Source: `OptionAll::take` (lines 17-19): return the previous value, leaving
`None` in place; as a pure function, the pair (previous, replacement). -/
def OptionAll.take {α : Type} (x : OptionAll α) : OptionAll α × OptionAll α :=
  (x, OptionAll.none)

/-- Source: `OptionAll::map` (lines 21-27). -/
def OptionAll.map {α β : Type} (x : OptionAll α) (f : α → β) : OptionAll β :=
  match x with
  | OptionAll.some v => OptionAll.some (f v)
  | OptionAll.all => OptionAll.all
  | OptionAll.none => OptionAll.none

/-- Source: `OptionAll::is_all` (lines 29-31). -/
def OptionAll.is_all {α : Type} : OptionAll α → Bool
  | OptionAll.all => true
  | _ => false

/-- Model of `HashSet::insert` on the list model of a hash set. -/
def setInsert (l : List FieldId) (x : FieldId) : List FieldId :=
  if l.contains x then l else l ++ [x]

/-- Source: `schema.rs` lines 40-50.  `ranked: HashSet<FieldId>` and the payload of
`displayed: OptionAll<HashSet<FieldId>>` are duplicate-free lists;
`searchable: OptionAll<Vec<FieldId>>` is an ordered list. -/
structure Schema where
  fields_map : FieldsMap
  primary_key : Option FieldId
  ranked : List FieldId
  displayed : OptionAll (List FieldId)
  searchable : OptionAll (List FieldId)
  indexed_position : PositionMap
deriving DecidableEq, Repr

/-- Source: `impl Default for OptionAll` (lines 34-38) yields `All`, so the derived
`Schema::default` has both predicates in `All` mode. -/
instance : Inhabited Schema :=
  ⟨{ fields_map := ⟨[]⟩, primary_key := Option.none, ranked := [],
     displayed := OptionAll.all, searchable := OptionAll.all,
     indexed_position := ⟨[], []⟩ }⟩

/-- Source: `Schema::with_primary_key` (lines 53-66).  The `.unwrap()` on line 55
cannot fail: interning into the empty interner never exhausts the allocator;
the error branch is unreachable. -/
def Schema.with_primary_key (name : String) : Schema :=
  match FieldsMap.insert ⟨[]⟩ name with
  | (Except.ok field_id, fm) =>
    { fields_map := fm, primary_key := Option.some field_id, ranked := [],
      displayed := OptionAll.all, searchable := OptionAll.all,
      indexed_position := ⟨[], []⟩ }
  | (Except.error _, _) => default

/-- Source: `Schema::primary_key` (lines 68-70); the `.unwrap()` is total on states
built by the interface (the recorded identifier is always interned), so it
is modelled by `Option.bind`. -/
def Schema.primaryKey (s : Schema) : Option String :=
  s.primary_key.bind (fun id => s.fields_map.name id)

/-- Source: `Schema::insert` (lines 96-98): delegate to the interner. -/
def Schema.insert (s : Schema) (name : String) : SResult FieldId × Schema :=
  let r := s.fields_map.insert name
  (r.1, { s with fields_map := r.2 })

/-- Source: `Schema::set_primary_key` (lines 72-81). -/
def Schema.set_primary_key (s : Schema) (name : String) : SResult FieldId × Schema :=
  if s.primary_key.isSome then
    (Except.error Error.primaryKeyAlreadyPresent, s)
  else
    match s.insert name with
    | (Except.ok id, s') => (Except.ok id, { s' with primary_key := Option.some id })
    | (Except.error e, s') => (Except.error e, s')

/-- Source: `Schema::insert_position_last` (lines 108-112); `len() as u16` on line
109 is a narrowing cast. -/
def Schema.insert_position_last (s : Schema) (id : FieldId) : IndexedPos × Schema :=
  (s.indexed_position.len % 65536,
   { s with indexed_position := s.indexed_position.push id })

/-- Source: `Schema::insert_with_position` (lines 103-106). -/
def Schema.insert_with_position (s : Schema) (name : String) :
    SResult (FieldId × IndexedPos) × Schema :=
  match s.insert name with
  | (Except.ok id, s') =>
    let r := s'.insert_position_last id
    (Except.ok (id, r.1), r.2)
  | (Except.error e, s') => (Except.error e, s')

/-- Source: `Schema::displayed` (lines 118-131), renamed to avoid clashing with the
field: the effective displayed identifier set; under `All` it is every
known identifier (the interner maps names to `0, …, n-1`). -/
def Schema.displayedIds (s : Schema) : List FieldId :=
  match s.displayed with
  | OptionAll.some v => v
  | OptionAll.all => List.range s.fields_map.names.length
  | OptionAll.none => []

/-- Source: `Schema::is_displayed_all` (lines 133-135). -/
def Schema.is_displayed_all (s : Schema) : Bool :=
  s.displayed.is_all

/-- Source: `Schema::name` (lines 87-89). -/
def Schema.name (s : Schema) (id : FieldId) : Option String :=
  s.fields_map.name id

/-- Source: `Schema::displayed_names` (lines 137-139): the result is a
`HashSet<&str>`, an unordered set. -/
def Schema.displayed_names (s : Schema) : Finset String :=
  (s.displayedIds.filterMap (fun f => s.name f)).toFinset

/-- Source: `Schema::searchable_attributes` (lines 141-154): under `All` the
effective list is the positioned identifiers in position order. -/
def Schema.searchable_attributes (s : Schema) : List FieldId :=
  match s.searchable with
  | OptionAll.some v => v
  | OptionAll.all => s.indexed_position.field_pos.map (fun e => e.1)
  | OptionAll.none => []

/-- Source: `Schema::searchable_attributes_str` (lines 156-162). -/
def Schema.searchable_attributes_str (s : Schema) : List String :=
  s.searchable_attributes.filterMap (fun a => s.name a)

/-- Source: `Schema::set_ranked` (lines 164-168). -/
def Schema.set_ranked (s : Schema) (name : String) : SResult FieldId × Schema :=
  match s.fields_map.insert name with
  | (Except.ok id, fm) => (Except.ok id, { s with fields_map := fm, ranked := setInsert s.ranked id })
  | (Except.error e, fm) => (Except.error e, { s with fields_map := fm })

/-- Source: `Schema::set_displayed` (lines 170-185). -/
def Schema.set_displayed (s : Schema) (name : String) : SResult FieldId × Schema :=
  match s.fields_map.insert name with
  | (Except.error e, fm) => (Except.error e, { s with fields_map := fm })
  | (Except.ok id, fm) =>
    let t := s.displayed.take
    let d := match t.1 with
      | OptionAll.all => OptionAll.all
      | OptionAll.none => OptionAll.some [id]
      | OptionAll.some v => OptionAll.some (setInsert v id)
    (Except.ok id, { s with fields_map := fm, displayed := d })

/-- Source: `Schema::clear_ranked` (lines 188-190). -/
def Schema.clear_ranked (s : Schema) : Schema :=
  { s with ranked := [] }

/-- Source: `Schema::is_ranked` (lines 192-194). -/
def Schema.is_ranked (s : Schema) (id : FieldId) : Bool :=
  s.ranked.contains id

/-- Source: `Schema::is_displayed` (lines 196-202). -/
def Schema.is_displayed (s : Schema) (id : FieldId) : Bool :=
  match s.displayed with
  | OptionAll.some v => v.contains id
  | OptionAll.all => true
  | OptionAll.none => false

/-- Source: `Schema::get_position` (lines 204-206). -/
def Schema.get_position (s : Schema) (id : FieldId) : Option IndexedPos :=
  s.indexed_position.fieldToPos id

/-- Source: `Schema::is_searchable_all` (lines 208-210). -/
def Schema.is_searchable_all (s : Schema) : Bool :=
  s.searchable.is_all

/-- Source: `Schema::indexed_pos_to_field_id` (lines 212-214). -/
def Schema.indexed_pos_to_field_id (s : Schema) (pos : IndexedPos) : Option FieldId :=
  s.indexed_position.posToField pos

/-- The loop of `Schema::update_ranked` (lines 216-222): `set_ranked` each
name, propagating the first error (state mutated so far is kept). -/
def update_ranked_go (s : Schema) : List String → SResult Unit × Schema
  | [] => (Except.ok (), s)
  | n :: rest =>
    match s.set_ranked n with
    | (Except.ok _, s') => update_ranked_go s' rest
    | (Except.error e, s') => (Except.error e, s')

/-- Source: `Schema::update_ranked` (lines 216-222). -/
def Schema.update_ranked (s : Schema) (data : List String) : SResult Unit × Schema :=
  update_ranked_go { s with ranked := [] } data

/-- The loop of `Schema::update_displayed` (lines 232-234). -/
def update_displayed_go (s : Schema) : List String → SResult Unit × Schema
  | [] => (Except.ok (), s)
  | n :: rest =>
    match s.set_displayed n with
    | (Except.ok _, s') => update_displayed_go s' rest
    | (Except.error e, s') => (Except.error e, s')

/-- Source: `Schema::update_displayed` (lines 224-236): `take` the predicate, clear
the set when one was present (both arms yield an explicit empty set), then
`set_displayed` each name. -/
def Schema.update_displayed (s : Schema) (data : List String) : SResult Unit × Schema :=
  let t := s.displayed.take
  let d := match t.1 with
    | OptionAll.some _ => OptionAll.some ([] : List FieldId)
    | _ => OptionAll.some ([] : List FieldId)
  update_displayed_go { s with displayed := d } data

/-- The loop of `Schema::update_searchable` (lines 242-248): intern each
name, place its identifier at the position of the name in the input
(`pos as u16` on line 244 is a narrowing cast), and push the identifier onto
the new `searchable` vector.  `PositionMap::insert` returns nothing, so the
`if let Some(id)` re-push guard on lines 244-246 never fires. -/
def update_searchable_go (s : Schema) : List String → Nat → List FieldId → SResult Unit × Schema
  | [], _, acc => (Except.ok (), { s with searchable := OptionAll.some acc })
  | name :: rest, pos, acc =>
    match s.insert name with
    | (Except.ok id, s') =>
      update_searchable_go
        { s' with indexed_position := s'.indexed_position.insert id (pos % 65536) }
        rest (pos + 1) (acc ++ [id])
    | (Except.error e, s') => (Except.error e, s')

/-- Source: `Schema::update_searchable` (lines 238-251). -/
def Schema.update_searchable (s : Schema) (data : List String) : SResult Unit × Schema :=
  update_searchable_go s data 0 []

/-- Source: `Schema::set_all_fields_as_indexed` (lines 253-255). -/
def Schema.set_all_fields_as_indexed (s : Schema) : Schema :=
  { s with searchable := OptionAll.all }

/-- Source: `Schema::set_all_fields_as_displayed` (lines 257-259). -/
def Schema.set_all_fields_as_displayed (s : Schema) : Schema :=
  { s with displayed := OptionAll.all }

/-! ## Operation sequences -/

/-- A `PositionMap` mutation, for quantifying over operation sequences. -/
inductive PMOp where
  | push : FieldId → PMOp
  | insert : FieldId → IndexedPos → PMOp
deriving DecidableEq, Repr

def PMOp.apply (m : PositionMap) : PMOp → PositionMap
  | PMOp.push id => m.push id
  | PMOp.insert id pos => m.insert id pos

/-- The map obtained by running `ops` from `PositionMap::default()`. -/
def applyPMOps (ops : List PMOp) : PositionMap :=
  ops.foldl PMOp.apply default

/-- Contract-respecting operation sequences: every argument fits in `u16`
(as the Rust types require), and `push` is only called on an identifier
that is not already positioned — the documented precondition of
`PositionMap::push` (spec section 4.2). -/
def wfPMOps (m : PositionMap) : List PMOp → Bool
  | [] => true
  | op :: rest =>
    (match op with
     | PMOp.push id => decide (id < 65536) && (m.fieldToPos id).isNone
     | PMOp.insert id pos => decide (id < 65536) && decide (pos < 65536))
    && wfPMOps (op.apply m) rest

/-- A public mutating operation of `Schema`. -/
inductive SchemaOp where
  | insert : String → SchemaOp
  | insert_with_position : String → SchemaOp
  | set_primary_key : String → SchemaOp
  | update_ranked : List String → SchemaOp
  | update_displayed : List String → SchemaOp
  | update_searchable : List String → SchemaOp
  | set_all_fields_as_displayed : SchemaOp
  | set_all_fields_as_indexed : SchemaOp
  | clear_ranked : SchemaOp
deriving DecidableEq, Repr

def SchemaOp.apply (s : Schema) : SchemaOp → Schema
  | SchemaOp.insert n => (s.insert n).2
  | SchemaOp.insert_with_position n => (s.insert_with_position n).2
  | SchemaOp.set_primary_key n => (s.set_primary_key n).2
  | SchemaOp.update_ranked d => (s.update_ranked d).2
  | SchemaOp.update_displayed d => (s.update_displayed d).2
  | SchemaOp.update_searchable d => (s.update_searchable d).2
  | SchemaOp.set_all_fields_as_displayed => s.set_all_fields_as_displayed
  | SchemaOp.set_all_fields_as_indexed => s.set_all_fields_as_indexed
  | SchemaOp.clear_ranked => s.clear_ranked

def applySchemaOps (s : Schema) (ops : List SchemaOp) : Schema :=
  ops.foldl SchemaOp.apply s

/-- Interning a list of names in order: the identifiers produced and the
final interner, `none` if some interning fails. -/
def internList (fm : FieldsMap) : List String → Option (List FieldId × FieldsMap)
  | [] => Option.some ([], fm)
  | n :: rest =>
    match fm.insert n with
    | (Except.ok id, fm') => (internList fm' rest).map (fun r => (id :: r.1, r.2))
    | (Except.error _, _) => Option.none

/-- The position-map footprint of `update_searchable`'s loop: insert the
identifiers at consecutive positions starting from `k`. -/
def insertSeqPM (m : PositionMap) (k : Nat) : List FieldId → PositionMap
  | [] => m
  | id :: rest => insertSeqPM (m.insert id (k % 65536)) (k + 1) rest

/-- The structural invariant of a `PositionMap` reachable through its
interface: the position list is duplicate-free, every identifier fits in
`u16`, and the reverse map is exactly the enumeration of the list. -/
def PMInv (m : PositionMap) : Prop :=
  m.pos_to_field.Nodup ∧ (∀ x ∈ m.pos_to_field, x < 65536) ∧
    m.field_to_pos = enumPairs m.pos_to_field

instance (m : PositionMap) : Decidable (PMInv m) := by
  unfold PMInv; infer_instance

/-! ## Helper lemmas: association-list lookup -/

theorem lookup_cons_pair (a k : FieldId) (v : IndexedPos) (l : List (FieldId × IndexedPos)) :
    List.lookup a ((k, v) :: l) = if a = k then Option.some v else List.lookup a l := by
  simp only [List.lookup]
  split <;> rename_i h
  · simp [beq_iff_eq] at h
    simp [h]
  · simp [beq_iff_eq] at h
    simp [h]

theorem lookup_eq_none_iff (a : FieldId) (l : List (FieldId × IndexedPos)) :
    List.lookup a l = Option.none ↔ a ∉ l.map Prod.fst := by
  induction l with
  | nil => simp [List.lookup]
  | cons x rest ih =>
    rcases x with ⟨k, v⟩
    rw [lookup_cons_pair]
    by_cases h : a = k <;> simp [h, ih]

theorem lookup_append_left (a : FieldId) (l₁ l₂ : List (FieldId × IndexedPos))
    (h : (List.lookup a l₁).isSome) :
    List.lookup a (l₁ ++ l₂) = List.lookup a l₁ := by
  induction l₁ with
  | nil => simp [List.lookup] at h
  | cons x rest ih =>
    rcases x with ⟨k, v⟩
    rw [List.cons_append, lookup_cons_pair, lookup_cons_pair]
    by_cases hak : a = k
    · simp [hak]
    · rw [if_neg hak, if_neg hak]
      rw [lookup_cons_pair, if_neg hak] at h
      exact ih h

theorem lookup_append_right (a : FieldId) (l₁ l₂ : List (FieldId × IndexedPos))
    (h : List.lookup a l₁ = Option.none) :
    List.lookup a (l₁ ++ l₂) = List.lookup a l₂ := by
  induction l₁ with
  | nil => simp
  | cons x rest ih =>
    rcases x with ⟨k, v⟩
    rw [lookup_cons_pair] at h
    by_cases hak : a = k
    · simp [hak] at h
    · rw [List.cons_append, lookup_cons_pair, if_neg hak]
      exact ih (by rw [if_neg hak] at h; exact h)

/-! ## Helper lemmas: `enumPairs` -/

/-- Helper: `enumPairs` with the enumeration starting at `k`; the generalisation
used for induction. -/
def enumPairsFrom (k : Nat) (l : List FieldId) : List (FieldId × IndexedPos) :=
  (List.enumFrom k l).map (fun e => (e.2, e.1 % 65536))

theorem enumPairs_eq_from (l : List FieldId) : enumPairs l = enumPairsFrom 0 l := by
  simp [enumPairs, enumPairsFrom, List.enum_eq_enumFrom]

theorem enumPairsFrom_nil (k : Nat) : enumPairsFrom k [] = [] := rfl

theorem enumPairsFrom_cons (k : Nat) (x : FieldId) (xs : List FieldId) :
    enumPairsFrom k (x :: xs) = (x, k % 65536) :: enumPairsFrom (k + 1) xs := by
  simp [enumPairsFrom, List.enumFrom_cons]

theorem enumPairsFrom_append (k : Nat) (l₁ l₂ : List FieldId) :
    enumPairsFrom k (l₁ ++ l₂) = enumPairsFrom k l₁ ++ enumPairsFrom (k + l₁.length) l₂ := by
  induction l₁ generalizing k with
  | nil => simp [enumPairsFrom_nil]
  | cons x xs ih =>
    rw [List.cons_append, enumPairsFrom_cons, enumPairsFrom_cons, ih (k + 1)]
    simp only [List.length_cons, List.cons_append, List.cons.injEq, true_and]
    ring_nf

theorem enumPairsFrom_keys (k : Nat) (l : List FieldId) :
    (enumPairsFrom k l).map Prod.fst = l := by
  induction l generalizing k with
  | nil => rfl
  | cons x xs ih => rw [enumPairsFrom_cons]; simp [ih]

theorem enumPairsFrom_length (k : Nat) (l : List FieldId) :
    (enumPairsFrom k l).length = l.length := by
  simp [enumPairsFrom]

theorem lookup_enumPairsFrom_of_getElem (k : Nat) (l : List FieldId) (p : Nat) (id : FieldId)
    (hnd : l.Nodup) (hle : k + l.length ≤ 65536) (hget : l[p]? = Option.some id) :
    List.lookup id (enumPairsFrom k l) = Option.some (k + p) := by
  induction l generalizing k p with
  | nil => simp at hget
  | cons x xs ih =>
    simp only [List.length_cons] at hle
    rw [enumPairsFrom_cons, lookup_cons_pair]
    rcases p with _ | p
    · simp only [List.getElem?_cons_zero, Option.some.injEq] at hget
      subst hget
      rw [if_pos rfl, Nat.mod_eq_of_lt (by omega), Nat.add_zero]
    · simp only [List.getElem?_cons_succ] at hget
      have hmem : id ∈ xs := by
        rcases List.getElem?_eq_some.mp hget with ⟨h, he⟩
        exact he ▸ List.getElem_mem h
      have hne : id ≠ x := by
        intro h
        subst h
        exact (List.nodup_cons.mp hnd).1 hmem
      rw [if_neg hne, ih (k + 1) p (List.nodup_cons.mp hnd).2 (by omega) hget]
      congr 1
      omega

theorem lookup_enumPairsFrom_some (k : Nat) (l : List FieldId) (q : Nat) (id : FieldId)
    (hle : k + l.length ≤ 65536) (h : List.lookup id (enumPairsFrom k l) = Option.some q) :
    ∃ p, q = k + p ∧ l[p]? = Option.some id := by
  induction l generalizing k with
  | nil => simp [enumPairsFrom_nil, List.lookup] at h
  | cons x xs ih =>
    rw [enumPairsFrom_cons, lookup_cons_pair] at h
    by_cases hid : id = x
    · rw [if_pos hid] at h
      refine ⟨0, ?_, by simp [hid]⟩
      simp only [Option.some.injEq] at h
      rw [← h, Nat.mod_eq_of_lt (by simp at hle; omega), Nat.add_zero]
    · rw [if_neg hid] at h
      rcases ih (k + 1) (by simp at hle ⊢; omega) h with ⟨p, hq, hget⟩
      exact ⟨p + 1, by omega, by simpa using hget⟩

theorem lookup_enumPairsFrom_none_iff (k : Nat) (l : List FieldId) (id : FieldId) :
    List.lookup id (enumPairsFrom k l) = Option.none ↔ id ∉ l := by
  rw [lookup_eq_none_iff, enumPairsFrom_keys]

/-! ## Helper lemmas: pigeonhole bounds -/

theorem nodup_bounded_length_le (l : List Nat) (n : Nat)
    (hnd : l.Nodup) (hb : ∀ x ∈ l, x < n) : l.length ≤ n := by
  have hsub : l.toFinset ⊆ Finset.range n := by
    intro x hx
    rw [List.mem_toFinset] at hx
    exact Finset.mem_range.mpr (hb x hx)
  have := Finset.card_le_card hsub
  rwa [List.toFinset_card_of_nodup hnd, Finset.card_range] at this

/-! ## Helper lemmas: `btreeInsert` and `rebuildMap` -/

theorem btreeInsert_of_lookup_none (m : List (FieldId × IndexedPos)) (k : FieldId)
    (v : IndexedPos) (h : List.lookup k m = Option.none) :
    btreeInsert m k v = m ++ [(k, v)] := by
  simp [btreeInsert, h]

theorem foldl_btreeInsert_of_nodup_keys (ps acc : List (FieldId × IndexedPos))
    (hnd : (ps.map Prod.fst).Nodup)
    (hdisj : ∀ a ∈ ps.map Prod.fst, List.lookup a acc = Option.none) :
    ps.foldl (fun m e => btreeInsert m e.1 e.2) acc = acc ++ ps := by
  induction ps generalizing acc with
  | nil => simp
  | cons e rest ih =>
    rcases e with ⟨k, v⟩
    have hk : List.lookup k acc = Option.none := hdisj k (by simp)
    rw [List.foldl_cons]
    simp only at hnd hdisj ⊢
    rw [btreeInsert_of_lookup_none acc k v hk]
    rw [ih (acc ++ [(k, v)]) (List.nodup_cons.mp (by simpa using hnd)).2 ?_]
    · simp
    · intro a ha
      have hne : a ≠ k := by
        intro h
        subst h
        exact (List.nodup_cons.mp (by simpa using hnd)).1 ha
      rw [lookup_append_right a acc [(k, v)] (hdisj a (by simp [ha]))]
      rw [lookup_cons_pair, if_neg hne]
      rfl

theorem rebuildMap_eq_enumPairs (l : List FieldId) (hnd : l.Nodup) :
    rebuildMap l = enumPairs l := by
  rw [rebuildMap]
  rw [foldl_btreeInsert_of_nodup_keys (enumPairs l) [] ?_ ?_]
  · simp
  · rw [enumPairs_eq_from, enumPairsFrom_keys]
    exact hnd
  · intro a _
    rfl

/-! ## Helper lemmas: `insertIdx` and `eraseIdx` -/

theorem insertIdx_length_append (pre ys : List FieldId) (x : FieldId) :
    List.insertIdx pre.length x (pre ++ ys) = pre ++ x :: ys := by
  induction pre with
  | nil => rfl
  | cons a as ih => simp [List.insertIdx_succ_cons, ih]

theorem eraseIdx_eq_erase_of_getElem (l : List FieldId) (j : Nat) (a : FieldId)
    (hnd : l.Nodup) (hget : l[j]? = Option.some a) :
    l.eraseIdx j = l.erase a := by
  induction l generalizing j with
  | nil => simp at hget
  | cons x xs ih =>
    rcases j with _ | j
    · simp only [List.getElem?_cons_zero, Option.some.injEq] at hget
      subst hget
      rw [List.eraseIdx_cons_zero, List.erase_cons_head]
    · simp only [List.getElem?_cons_succ] at hget
      have hmem : a ∈ xs := by
        rcases List.getElem?_eq_some.mp hget with ⟨h, he⟩
        exact he ▸ List.getElem_mem h
      have hne : x ≠ a := by
        intro h
        subst h
        exact (List.nodup_cons.mp hnd).1 hmem
      rw [List.eraseIdx_cons_succ, List.erase_cons_tail (by simpa using hne),
        ih j (List.nodup_cons.mp hnd).2 hget]

theorem insertIdx_take_drop (l : List FieldId) (u : Nat) (x : FieldId) (h : u ≤ l.length) :
    l.insertIdx u x = l.take u ++ x :: l.drop u := by
  have hl : (l.take u).length = u := by rw [List.length_take]; omega
  calc l.insertIdx u x
      = (l.take u ++ l.drop u).insertIdx (l.take u).length x := by
        rw [List.take_append_drop, hl]
    _ = l.take u ++ x :: l.drop u := insertIdx_length_append _ _ _

theorem insertIdx_perm_cons (l : List FieldId) (u : Nat) (x : FieldId) (h : u ≤ l.length) :
    (l.insertIdx u x).Perm (x :: l) := by
  rw [insertIdx_take_drop l u x h]
  have hp := @List.perm_middle _ x (l.take u) (l.drop u)
  simpa [List.take_append_drop] using hp

/-! ## The reachable-state invariant of `PositionMap` -/

theorem pminv_default : PMInv (default : PositionMap) := by
  refine ⟨List.nodup_nil, ?_, rfl⟩
  intro x hx
  exact absurd hx (List.not_mem_nil x)

theorem pminv_len_le (m : PositionMap) (hInv : PMInv m) : m.len ≤ 65536 :=
  nodup_bounded_length_le _ 65536 hInv.1 hInv.2.1

theorem pminv_not_positioned (m : PositionMap) (id : FieldId) (hInv : PMInv m) :
    m.fieldToPos id = Option.none ↔ id ∉ m.pos_to_field := by
  rw [PositionMap.fieldToPos, hInv.2.2, enumPairs_eq_from]
  exact lookup_enumPairsFrom_none_iff 0 _ id

theorem pminv_fieldToPos_iff (m : PositionMap) (hInv : PMInv m) (id : FieldId) (p : Nat) :
    m.fieldToPos id = Option.some p ↔ m.pos_to_field[p]? = Option.some id := by
  obtain ⟨hnd, hb, hftp⟩ := hInv
  have hlen : m.pos_to_field.length ≤ 65536 := nodup_bounded_length_le _ 65536 hnd hb
  constructor
  · intro h
    rw [PositionMap.fieldToPos, hftp, enumPairs_eq_from] at h
    rcases lookup_enumPairsFrom_some 0 _ p id (by omega) h with ⟨q, hq, hget⟩
    have hqp : q = p := by omega
    rwa [hqp] at hget
  · intro h
    rw [PositionMap.fieldToPos, hftp, enumPairs_eq_from]
    have := lookup_enumPairsFrom_of_getElem 0 _ p id hnd (by omega) h
    simpa using this

theorem pminv_mk_rebuild (l : List FieldId) (hnd : l.Nodup) (hb : ∀ x ∈ l, x < 65536) :
    PMInv ⟨l, rebuildMap l⟩ :=
  ⟨hnd, hb, rebuildMap_eq_enumPairs l hnd⟩

theorem pminv_push (m : PositionMap) (id : FieldId)
    (hInv : PMInv m) (hid : id < 65536) (hfresh : m.fieldToPos id = Option.none) :
    PMInv (m.push id) := by
  obtain ⟨hnd, hb, hftp⟩ := hInv
  have hmem : id ∉ m.pos_to_field := (pminv_not_positioned m id ⟨hnd, hb, hftp⟩).mp hfresh
  refine ⟨?_, ?_, ?_⟩
  · rw [PositionMap.push]
    rw [List.nodup_append]
    refine ⟨hnd, List.nodup_singleton id, ?_⟩
    intro a ha hb'
    simp only [List.mem_singleton] at hb'
    subst hb'
    exact hmem ha
  · intro x hx
    rw [PositionMap.push] at hx
    simp only [List.mem_append, List.mem_singleton] at hx
    rcases hx with hx | hx
    · exact hb x hx
    · subst hx; exact hid
  · show btreeInsert m.field_to_pos id (m.pos_to_field.length % 65536)
        = enumPairs (m.pos_to_field ++ [id])
    rw [hftp, enumPairs_eq_from, enumPairs_eq_from,
      btreeInsert_of_lookup_none _ id _
        ((lookup_enumPairsFrom_none_iff 0 _ id).mpr hmem),
      enumPairsFrom_append]
    rw [enumPairsFrom_cons, enumPairsFrom_nil]
    simp

theorem pminv_insert (m : PositionMap) (id : FieldId) (pos : IndexedPos)
    (hInv : PMInv m) (hid : id < 65536) : PMInv (m.insert id pos) := by
  obtain ⟨hnd, hb, hftp⟩ := hInv
  have hlen : m.pos_to_field.length ≤ 65536 := nodup_bounded_length_le _ 65536 hnd hb
  have key : ∀ (base : List FieldId) (u : Nat), base.Nodup → (∀ x ∈ base, x < 65536) →
      id ∉ base →
      PMInv ⟨(if u < base.length then base.insertIdx u id else base ++ [id]),
        rebuildMap (if u < base.length then base.insertIdx u id else base ++ [id])⟩ := by
    intro base u hbnd hbb hidb
    have hperm : (if u < base.length then base.insertIdx u id else base ++ [id]).Perm
        (id :: base) := by
      split <;> rename_i h
      · exact insertIdx_perm_cons base u id (le_of_lt h)
      · exact List.perm_append_singleton id base
    have hnd' := hperm.symm.nodup (List.nodup_cons.mpr ⟨hidb, hbnd⟩)
    refine pminv_mk_rebuild _ hnd' ?_
    intro x hx
    rcases List.mem_cons.mp ((hperm.mem_iff).mp hx) with hx' | hx'
    · subst hx'; exact hid
    · exact hbb x hx'
  cases hlook : m.field_to_pos.lookup id with
  | none =>
    have hmem : id ∉ m.pos_to_field := by
      rw [hftp, enumPairs_eq_from] at hlook
      exact (lookup_enumPairsFrom_none_iff 0 _ id).mp hlook
    have hk := key m.pos_to_field pos hnd hb hmem
    simpa [PositionMap.insert, hlook] using hk
  | some old =>
    have hget : m.pos_to_field[old]? = Option.some id := by
      rw [hftp, enumPairs_eq_from] at hlook
      rcases lookup_enumPairsFrom_some 0 _ old id (by omega) hlook with ⟨p, hq, hg⟩
      have hpo : p = old := by omega
      rwa [hpo] at hg
    have hsub : (m.pos_to_field.eraseIdx old).Sublist m.pos_to_field :=
      List.eraseIdx_sublist _ old
    have hbase_nd : (m.pos_to_field.eraseIdx old).Nodup := hsub.nodup hnd
    have herase : m.pos_to_field.eraseIdx old = m.pos_to_field.erase id :=
      eraseIdx_eq_erase_of_getElem _ old id hnd hget
    have hidnot : id ∉ m.pos_to_field.eraseIdx old := by
      rw [herase]
      intro hcon
      exact absurd ((hnd.mem_erase_iff).mp hcon).1 (by simp)
    have hbb : ∀ x ∈ m.pos_to_field.eraseIdx old, x < 65536 :=
      fun x hx => hb x (hsub.subset hx)
    have hk := key (m.pos_to_field.eraseIdx old) (if old < pos then pos + 1 else pos)
      hbase_nd hbb hidnot
    simpa [PositionMap.insert, hlook] using hk

theorem pminv_apply_ops (ops : List PMOp) :
    ∀ m, PMInv m → wfPMOps m ops = true → PMInv (ops.foldl PMOp.apply m) := by
  induction ops with
  | nil =>
    intro m hInv _
    simpa using hInv
  | cons op rest ih =>
    intro m hInv hwf
    simp only [wfPMOps, Bool.and_eq_true] at hwf
    obtain ⟨hop, hrest⟩ := hwf
    rw [List.foldl_cons]
    refine ih _ ?_ hrest
    cases op with
    | push id =>
      simp only [Bool.and_eq_true, decide_eq_true_eq, Option.isNone_iff_eq_none] at hop
      exact pminv_push m id hInv hop.1 hop.2
    | insert id pos =>
      simp only [Bool.and_eq_true, decide_eq_true_eq] at hop
      exact pminv_insert m id pos hInv hop.1

/-! ## How `PositionMap.insert` rebuilds a prefix -/

theorem ins_or_append_front (pre tail : List FieldId) (id : FieldId) :
    (if pre.length < (pre ++ tail).length then (pre ++ tail).insertIdx pre.length id
     else (pre ++ tail) ++ [id]) = pre ++ id :: tail := by
  rcases tail with _ | ⟨t, ts⟩
  · rw [List.append_nil, if_neg (lt_irrefl _)]
  · rw [if_pos (by simp)]
    exact insertIdx_length_append pre (t :: ts) id

/-- Inserting `id` at position `length pre` in a map whose position list is
`pre ++ rest`, with `id` not in `pre`: the result is `pre ++ id :: rest`
with the old occurrence of `id` (if any) removed from `rest`. -/
theorem insert_front (m : PositionMap) (id : FieldId) (pre rest : List FieldId)
    (hInv : PMInv m) (hsplit : m.pos_to_field = pre ++ rest)
    (hpre : id ∉ pre) :
    (m.insert id pre.length).pos_to_field = pre ++ id :: rest.erase id := by
  obtain ⟨hnd, hb, hftp⟩ := hInv
  have hlen : m.pos_to_field.length ≤ 65536 := nodup_bounded_length_le _ 65536 hnd hb
  cases hlook : m.field_to_pos.lookup id with
  | none =>
    have hmem : id ∉ m.pos_to_field := by
      rw [hftp, enumPairs_eq_from] at hlook
      exact (lookup_enumPairsFrom_none_iff 0 _ id).mp hlook
    have hrest : id ∉ rest := fun hc => hmem (by rw [hsplit]; exact List.mem_append_right _ hc)
    have hres : (m.insert id pre.length).pos_to_field
        = if pre.length < m.pos_to_field.length then
            m.pos_to_field.insertIdx pre.length id
          else m.pos_to_field ++ [id] := by
      simp [PositionMap.insert, hlook]
    rw [hres, hsplit, ins_or_append_front, List.erase_of_not_mem hrest]
  | some old =>
    have hget : m.pos_to_field[old]? = Option.some id := by
      rw [hftp, enumPairs_eq_from] at hlook
      rcases lookup_enumPairsFrom_some 0 _ old id (by omega) hlook with ⟨p, hq, hg⟩
      have hpo : p = old := by omega
      rwa [hpo] at hg
    have hOldGe : ¬ old < pre.length := by
      intro hcon
      have : pre[old]? = Option.some id := by
        rw [hsplit, List.getElem?_append, if_pos hcon] at hget
        exact hget
      rcases List.getElem?_eq_some.mp this with ⟨h, he⟩
      exact hpre (he ▸ List.getElem_mem h)
    have herase : m.pos_to_field.eraseIdx old = pre ++ rest.erase id := by
      rw [eraseIdx_eq_erase_of_getElem _ old id hnd hget, hsplit,
        List.erase_append_right rest hpre]
    have hres : (m.insert id pre.length).pos_to_field
        = if pre.length < (m.pos_to_field.eraseIdx old).length then
            (m.pos_to_field.eraseIdx old).insertIdx pre.length id
          else (m.pos_to_field.eraseIdx old) ++ [id] := by
      simp [PositionMap.insert, hlook, if_neg hOldGe]
    rw [hres, herase, ins_or_append_front]

/-- The loop of `update_searchable` builds the listed identifiers as a
prefix, in order, and erases them from the tail. -/
theorem insertSeqPM_mirrors (ids : List FieldId) :
    ∀ (m : PositionMap) (pre rest : List FieldId), PMInv m →
    m.pos_to_field = pre ++ rest → ids.Nodup →
    (∀ i ∈ ids, i < 65536) → (∀ i ∈ ids, i ∉ pre) →
    pre.length + ids.length ≤ 65536 →
    (insertSeqPM m pre.length ids).pos_to_field
        = pre ++ ids ++ ids.foldl (fun r i => r.erase i) rest ∧
      PMInv (insertSeqPM m pre.length ids) := by
  induction ids with
  | nil =>
    intro m pre rest hInv hsplit _ _ _ _
    constructor
    · simpa [insertSeqPM] using hsplit
    · simpa [insertSeqPM] using hInv
  | cons id tl ih =>
    intro m pre rest hInv hsplit hnd hb hpre hlen
    simp only [List.length_cons] at hlen
    have hplt : pre.length < 65536 := by omega
    rw [insertSeqPM, Nat.mod_eq_of_lt hplt]
    have hid : id < 65536 := hb id (by simp)
    have hfront := insert_front m id pre rest hInv hsplit (hpre id (by simp))
    have hInv' := pminv_insert m id pre.length hInv hid
    have hsplit' : (m.insert id pre.length).pos_to_field = (pre ++ [id]) ++ rest.erase id := by
      rw [hfront]
      simp
    have hplus : (pre ++ [id]).length = pre.length + 1 := by simp
    have htl := ih (m.insert id pre.length) (pre ++ [id]) (rest.erase id) hInv' hsplit'
      (List.nodup_cons.mp hnd).2
      (fun i hi => hb i (List.mem_cons_of_mem id hi))
      (fun i hi => by
        intro hcon
        rcases List.mem_append.mp hcon with hc | hc
        · exact hpre i (List.mem_cons_of_mem id hi) hc
        · simp only [List.mem_singleton] at hc
          subst hc
          exact (List.nodup_cons.mp hnd).1 hi)
      (by rw [hplus]; omega)
    rw [hplus] at htl
    refine ⟨?_, htl.2⟩
    rw [htl.1]
    simp [List.foldl_cons]

/-- Folding `erase` over a duplicate-free list is filtering out the listed
elements, preserving relative order. -/
theorem foldl_erase_eq_filter (ids : List FieldId) :
    ∀ (rest : List FieldId), rest.Nodup →
    ids.foldl (fun r i => r.erase i) rest
        = rest.filter (fun x => !(ids.contains x)) := by
  induction ids with
  | nil =>
    intro rest _
    simp
  | cons i tl ih =>
    intro rest hnd
    rw [List.foldl_cons, ih (rest.erase i) (hnd.erase i), hnd.erase_eq_filter i,
      List.filter_filter]
    refine List.filter_congr ?_
    intro x _
    rw [List.contains_cons, Bool.not_or, Bool.and_comm]
    rfl

/-! ## Schema-level lemmas -/

theorem update_searchable_go_spec (data : List String) :
    ∀ (s : Schema) (pos : Nat) (acc ids : List FieldId) (fm' : FieldsMap),
    internList s.fields_map data = Option.some (ids, fm') →
    update_searchable_go s data pos acc
      = (Except.ok (), { s with
          fields_map := fm',
          searchable := OptionAll.some (acc ++ ids),
          indexed_position := insertSeqPM s.indexed_position pos ids }) := by
  induction data with
  | nil =>
    intro s pos acc ids fm' hint
    simp only [internList, Option.some.injEq, Prod.mk.injEq] at hint
    obtain ⟨hids, hfm⟩ := hint
    subst hids
    subst hfm
    simp [update_searchable_go, insertSeqPM]
  | cons n rest ih =>
    intro s pos acc ids fm' hint
    rw [internList] at hint
    rcases hins : s.fields_map.insert n with ⟨r, fm₁⟩
    rw [hins] at hint
    cases r with
    | error e => simp at hint
    | ok id =>
      simp only at hint
      cases hrec : internList fm₁ rest with
      | none => rw [hrec] at hint; simp at hint
      | some p =>
        rcases p with ⟨ids', fm''⟩
        rw [hrec] at hint
        simp only [Option.map_some', Option.some.injEq, Prod.mk.injEq] at hint
        obtain ⟨hids, hfm⟩ := hint
        subst hids
        subst hfm
        have hsins : s.insert n = (Except.ok id, { s with fields_map := fm₁ }) := by
          simp [Schema.insert, hins]
        simp only [update_searchable_go, hsins]
        have hrec' := ih ({ s with
            fields_map := fm₁,
            indexed_position := s.indexed_position.insert id (pos % 65536) })
          (pos + 1) (acc ++ [id]) ids' fm'' (by simpa using hrec)
        rw [hrec']
        simp [insertSeqPM]

theorem update_searchable_go_subset (data : List String) :
    ∀ (s : Schema) (pos : Nat) (acc : List FieldId) (r : Schema) (u : Unit),
    update_searchable_go s data pos acc = (Except.ok u, r) →
    ∃ v, r.searchable = OptionAll.some v := by
  induction data with
  | nil =>
    intro s pos acc r u h
    rw [update_searchable_go] at h
    injection h with h1 h2
    exact ⟨acc, by rw [← h2]⟩
  | cons n rest ih =>
    intro s pos acc r u h
    rw [update_searchable_go] at h
    rcases hins : s.insert n with ⟨rr, s'⟩
    rw [hins] at h
    cases rr with
    | error e => injection h with h1 h2; cases h1
    | ok id => exact ih _ _ _ _ _ h

theorem fieldsMapIdAux_lt (name : String) :
    ∀ (l : List String) (k i : Nat),
    fieldsMapIdAux name k l = Option.some i → i < k + l.length := by
  intro l
  induction l with
  | nil => intro k i h; simp [fieldsMapIdAux] at h
  | cons n rest ih =>
    intro k i h
    rw [fieldsMapIdAux] at h
    by_cases hn : n = name
    · rw [if_pos hn] at h
      injection h with h'
      subst h'
      simp
    · rw [if_neg hn] at h
      have := ih (k + 1) i h
      simp only [List.length_cons]
      omega

theorem fieldsMapIdAux_eq_none (name : String) :
    ∀ (l : List String) (k : Nat),
    fieldsMapIdAux name k l = Option.none ↔ name ∉ l := by
  intro l
  induction l with
  | nil => intro k; simp [fieldsMapIdAux]
  | cons n rest ih =>
    intro k
    rw [fieldsMapIdAux]
    by_cases hn : n = name
    · subst hn
      simp
    · rw [if_neg hn, ih (k + 1)]
      simp [Ne.symm hn]

theorem internList_bounds (data : List String) :
    ∀ (fm : FieldsMap) (ids : List FieldId) (fm' : FieldsMap),
    fm.names.length ≤ 65536 →
    internList fm data = Option.some (ids, fm') →
    (∀ i ∈ ids, i < 65536) ∧ fm'.names.length ≤ 65536 := by
  induction data with
  | nil =>
    intro fm ids fm' hle h
    simp only [internList, Option.some.injEq, Prod.mk.injEq] at h
    obtain ⟨hids, hfm⟩ := h
    subst hids
    subst hfm
    exact ⟨by intro i hi; simp at hi, hle⟩
  | cons n rest ih =>
    intro fm ids fm' hle h
    rw [internList] at h
    rcases hins : fm.insert n with ⟨r, fm₁⟩
    rw [hins] at h
    cases r with
    | error e => simp at h
    | ok idn =>
      simp only at h
      cases hrec : internList fm₁ rest with
      | none => rw [hrec] at h; simp at h
      | some p =>
        rcases p with ⟨ids', fm''⟩
        rw [hrec] at h
        simp only [Option.map_some', Option.some.injEq, Prod.mk.injEq] at h
        obtain ⟨hids, hfm⟩ := h
        subst hids
        subst hfm
        -- analyse the single interning step
        have hstep : idn < 65536 ∧ fm₁.names.length ≤ 65536 := by
          rw [FieldsMap.insert] at hins
          cases hid : fm.id n with
          | some i =>
            rw [hid] at hins
            injection hins with h1 h2
            injection h1 with h1
            have hi := fieldsMapIdAux_lt n fm.names 0 i hid
            constructor
            · rw [← h1]
              exact Nat.lt_of_lt_of_le (by simpa using hi) hle
            · rw [← h2]; exact hle
          | none =>
            rw [hid] at hins
            by_cases hlt : fm.names.length < 65536
            · rw [if_pos hlt] at hins
              injection hins with h1 h2
              injection h1 with h1
              constructor
              · rw [← h1]; exact hlt
              · rw [← h2]
                simp only [List.length_append, List.length_singleton]
                omega
            · rw [if_neg hlt] at hins
              injection hins with h1 h2
              cases h1
        have := ih fm₁ ids' fm'' hstep.2 hrec
        refine ⟨?_, this.2⟩
        intro i hi
        rcases List.mem_cons.mp hi with hi' | hi'
        · subst hi'; exact hstep.1
        · exact this.1 i hi'

/-! ## The predicates never rest in `OptionAll.none` (C9 support) -/

def goodPreds (s : Schema) : Prop :=
  s.displayed ≠ OptionAll.none ∧ s.searchable ≠ OptionAll.none

instance (s : Schema) : Decidable (goodPreds s) := by
  unfold goodPreds; infer_instance

theorem set_displayed_good (s : Schema) (n : String) (h : goodPreds s) :
    goodPreds ((s.set_displayed n).2) := by
  rw [Schema.set_displayed]
  rcases hins : s.fields_map.insert n with ⟨r, fm⟩
  cases r with
  | error e => exact ⟨h.1, h.2⟩
  | ok id =>
    refine ⟨?_, h.2⟩
    simp only [OptionAll.take]
    cases s.displayed <;> simp

theorem update_displayed_go_good (data : List String) :
    ∀ s : Schema, goodPreds s → goodPreds ((update_displayed_go s data).2) := by
  induction data with
  | nil => intro s h; exact h
  | cons n rest ih =>
    intro s h
    rw [update_displayed_go]
    rcases hins : s.set_displayed n with ⟨r, s'⟩
    have hgood : goodPreds s' := by
      have := set_displayed_good s n h
      rwa [hins] at this
    cases r with
    | error e => exact hgood
    | ok id => exact ih s' hgood

theorem update_displayed_good (s : Schema) (data : List String) (h : goodPreds s) :
    goodPreds ((s.update_displayed data).2) := by
  rw [Schema.update_displayed]
  refine update_displayed_go_good data _ ⟨?_, h.2⟩
  simp only [OptionAll.take]
  cases s.displayed <;> simp

theorem update_searchable_go_good (data : List String) :
    ∀ (s : Schema) (pos : Nat) (acc : List FieldId), goodPreds s →
    goodPreds ((update_searchable_go s data pos acc).2) := by
  induction data with
  | nil =>
    intro s pos acc h
    exact ⟨h.1, by simp [update_searchable_go]⟩
  | cons n rest ih =>
    intro s pos acc h
    rw [update_searchable_go]
    rcases hins : s.insert n with ⟨r, s'⟩
    have hs' : s' = { s with fields_map := (s.fields_map.insert n).2 } := by
      rw [Schema.insert] at hins
      injection hins with h1 h2
      exact h2.symm
    cases r with
    | error e =>
      subst hs'
      exact ⟨h.1, h.2⟩
    | ok id =>
      refine ih _ _ _ ?_
      subst hs'
      exact ⟨h.1, h.2⟩

theorem update_ranked_go_good (data : List String) :
    ∀ s : Schema, goodPreds s → goodPreds ((update_ranked_go s data).2) := by
  induction data with
  | nil => intro s h; exact h
  | cons n rest ih =>
    intro s h
    rw [update_ranked_go]
    rcases hins : s.set_ranked n with ⟨r, s'⟩
    have hgood : goodPreds s' := by
      rw [Schema.set_ranked] at hins
      rcases hfm : s.fields_map.insert n with ⟨rr, fm⟩
      rw [hfm] at hins
      cases rr with
      | error e => injection hins with h1 h2; rw [← h2]; exact ⟨h.1, h.2⟩
      | ok id => injection hins with h1 h2; rw [← h2]; exact ⟨h.1, h.2⟩
    cases r with
    | error e => exact hgood
    | ok id => exact ih s' hgood

theorem schemaOp_good (op : SchemaOp) (s : Schema) (h : goodPreds s) :
    goodPreds (SchemaOp.apply s op) := by
  cases op with
  | insert n => exact ⟨h.1, h.2⟩
  | insert_with_position n =>
    show goodPreds (s.insert_with_position n).2
    rw [Schema.insert_with_position]
    rcases hins : s.insert n with ⟨r, s'⟩
    have hs' : s' = { s with fields_map := (s.fields_map.insert n).2 } := by
      rw [Schema.insert] at hins
      injection hins with h1 h2
      exact h2.symm
    cases r with
    | error e => subst hs'; exact ⟨h.1, h.2⟩
    | ok id => subst hs'; exact ⟨h.1, h.2⟩
  | set_primary_key n =>
    show goodPreds (s.set_primary_key n).2
    rw [Schema.set_primary_key]
    by_cases hpk : s.primary_key.isSome
    · rw [if_pos hpk]; exact h
    · rw [if_neg hpk]
      rcases hins : s.insert n with ⟨r, s'⟩
      have hs' : s' = { s with fields_map := (s.fields_map.insert n).2 } := by
        rw [Schema.insert] at hins
        injection hins with h1 h2
        exact h2.symm
      cases r with
      | error e => subst hs'; exact ⟨h.1, h.2⟩
      | ok id => subst hs'; exact ⟨h.1, h.2⟩
  | update_ranked d =>
    show goodPreds (s.update_ranked d).2
    rw [Schema.update_ranked]
    exact update_ranked_go_good d _ ⟨h.1, h.2⟩
  | update_displayed d => exact update_displayed_good s d h
  | update_searchable d => exact update_searchable_go_good d s 0 [] h
  | set_all_fields_as_displayed =>
    exact ⟨by simp [SchemaOp.apply, Schema.set_all_fields_as_displayed], h.2⟩
  | set_all_fields_as_indexed =>
    exact ⟨h.1, by simp [SchemaOp.apply, Schema.set_all_fields_as_indexed]⟩
  | clear_ranked => exact ⟨h.1, h.2⟩

theorem applySchemaOps_good (ops : List SchemaOp) :
    ∀ s : Schema, goodPreds s → goodPreds (applySchemaOps s ops) := by
  induction ops with
  | nil => intro s h; exact h
  | cons op rest ih =>
    intro s h
    rw [applySchemaOps, List.foldl_cons]
    exact ih (SchemaOp.apply s op) (schemaOp_good op s h)

theorem enumPairs_keys (l : List FieldId) : (enumPairs l).map (fun e => e.1) = l := by
  rw [enumPairs_eq_from]
  exact enumPairsFrom_keys 0 l

/-- C1: for every contract-respecting sequence of `PositionMap` operations
(`push` only on a not-yet-positioned identifier, arguments within `u16`)
run from the empty map, the occupied positions are exactly `{0, …, N-1}`
where `N` is the number of positioned identifiers: `posToField` is defined
precisely below `len`, the reverse map has `N` pairwise-distinct keys, and
distinct occupied positions hold distinct identifiers. -/
theorem positionMap_density_invariant (ops : List PMOp)
    (hwf : wfPMOps default ops = true) :
    (∀ p : Nat, ((applyPMOps ops).posToField p).isSome = true ↔ p < (applyPMOps ops).len) ∧
    ((applyPMOps ops).field_to_pos.map Prod.fst).Nodup ∧
    (applyPMOps ops).field_to_pos.length = (applyPMOps ops).len ∧
    (∀ p q : Nat, p < (applyPMOps ops).len → q < (applyPMOps ops).len →
      (applyPMOps ops).posToField p = (applyPMOps ops).posToField q → p = q) := by
  have hInv : PMInv (applyPMOps ops) := pminv_apply_ops ops default pminv_default hwf
  obtain ⟨hnd, hb, hftp⟩ := hInv
  refine ⟨?_, ?_, ?_, ?_⟩
  · intro p
    rw [PositionMap.posToField, PositionMap.len]
    constructor
    · intro h
      cases hg : (applyPMOps ops).pos_to_field[p]? with
      | none => rw [hg] at h; simp at h
      | some a =>
        rcases List.getElem?_eq_some.mp hg with ⟨hl, _⟩
        exact hl
    · intro h
      rw [List.getElem?_eq_getElem h]
      rfl
  · rw [hftp, enumPairs_eq_from, enumPairsFrom_keys]
    exact hnd
  · rw [hftp, enumPairs_eq_from, enumPairsFrom_length]
    rfl
  · intro p q hp hq heq
    rw [PositionMap.posToField, PositionMap.posToField] at heq
    rw [PositionMap.len] at hp hq
    rw [List.getElem?_eq_getElem hp, List.getElem?_eq_getElem hq] at heq
    injection heq with heq
    exact (hnd.getElem_inj_iff).mp heq

/-- Witness for C1 at a concrete contract-respecting sequence. -/
theorem positionMap_density_invariant_witness :
    wfPMOps default [PMOp.push 3, PMOp.push 7, PMOp.insert 3 1, PMOp.insert 9 0] = true ∧
    (((applyPMOps [PMOp.push 3, PMOp.push 7, PMOp.insert 3 1, PMOp.insert 9 0]).posToField 2).isSome = true ↔
      2 < (applyPMOps [PMOp.push 3, PMOp.push 7, PMOp.insert 3 1, PMOp.insert 9 0]).len) := by
  have h := positionMap_density_invariant
    [PMOp.push 3, PMOp.push 7, PMOp.insert 3 1, PMOp.insert 9 0] (by decide)
  exact ⟨by decide, h.1 2⟩

/-- C3: after any contract-respecting sequence of `push` and `insert`
operations from the empty map, `field_to_pos` and `pos_to_field` are exact
inverses: `fieldToPos id = some p` iff `posToField p = some id`. -/
theorem fieldToPos_posToField_inverse (ops : List PMOp)
    (hwf : wfPMOps default ops = true) (id : FieldId) (p : IndexedPos) :
    (applyPMOps ops).fieldToPos id = Option.some p ↔
      (applyPMOps ops).posToField p = Option.some id := by
  have hInv := pminv_apply_ops ops default pminv_default hwf
  simp only [PositionMap.posToField]
  exact pminv_fieldToPos_iff _ hInv id p

/-- Witness for C3 at a concrete contract-respecting sequence. -/
theorem fieldToPos_posToField_inverse_witness :
    wfPMOps default [PMOp.push 5, PMOp.insert 8 0] = true ∧
    ((applyPMOps [PMOp.push 5, PMOp.insert 8 0]).fieldToPos 5 = Option.some 1 ↔
      (applyPMOps [PMOp.push 5, PMOp.insert 8 0]).posToField 1 = Option.some 5) :=
  ⟨by decide, fieldToPos_posToField_inverse [PMOp.push 5, PMOp.insert 8 0] (by decide) 5 1⟩

/-- C4 counterexample: neither misuse fails.  `push` of the
already-positioned identifier `0` completes and leaves `0` occupying both
position `0` and position `1` (the one-position-per-identifier invariant is
silently broken), and `insert` of the unpositioned identifier `5` at the
out-of-range position `10` of the empty map completes, placing it at
position `0` — no failure or error in either case. -/
theorem push_insert_misuse_cex :
    (((default : PositionMap).push 0).push 0).pos_to_field = [0, 0] ∧
    (((default : PositionMap).push 0).push 0).posToField 0 = Option.some 0 ∧
    (((default : PositionMap).push 0).push 0).posToField 1 = Option.some 0 ∧
    ¬ (((default : PositionMap).push 0).push 0).pos_to_field.Nodup ∧
    ((default : PositionMap).insert 5 10).pos_to_field = [5] ∧
    ((default : PositionMap).insert 5 10).fieldToPos 5 = Option.some 0 := by
  decide

/-- C4 (amended): precondition violations do not fail.  `push` on an
already-positioned identifier completes, appending the identifier a second
time so that it is listed at two positions and the position list is no
longer duplicate-free; `insert` used as an initial placement of an
unpositioned identifier at any position at or beyond the current length
completes by appending at position `length` (the target is clamped), and
no error is produced in either case. -/
theorem push_insert_misuse_behavior :
    (∀ (m : PositionMap) (id : FieldId), id ∈ m.pos_to_field →
      (m.push id).pos_to_field = m.pos_to_field ++ [id] ∧
      ¬ (m.push id).pos_to_field.Nodup) ∧
    (∀ (m : PositionMap) (id : FieldId) (pos : IndexedPos),
      m.fieldToPos id = Option.none → m.len ≤ pos →
      (m.insert id pos).pos_to_field = m.pos_to_field ++ [id]) := by
  constructor
  · intro m id hmem
    refine ⟨rfl, ?_⟩
    intro hnd
    rw [PositionMap.push] at hnd
    rw [List.nodup_append] at hnd
    exact hnd.2.2 hmem (by simp)
  · intro m id pos hnone hlen
    rw [PositionMap.fieldToPos] at hnone
    have hshape : (m.insert id pos).pos_to_field
        = if pos < m.pos_to_field.length then m.pos_to_field.insertIdx pos id
          else m.pos_to_field ++ [id] := by
      simp [PositionMap.insert, hnone]
    rw [PositionMap.len] at hlen
    rw [hshape, if_neg (Nat.not_lt.mpr hlen)]

/-- Witness for the amended C4 statement at concrete inputs. -/
theorem push_insert_misuse_behavior_witness :
    ¬ (((default : PositionMap).push 4).push 4).pos_to_field.Nodup ∧
    ((default : PositionMap).insert 6 9).pos_to_field = [6] := by
  have h1 := push_insert_misuse_behavior.1 ((default : PositionMap).push 4) 4 (by decide)
  have h2 := push_insert_misuse_behavior.2 (default : PositionMap) 6 9 (by decide) (by decide)
  exact ⟨h1.2, by simpa using h2⟩

/-- C2: `update_searchable` moves each listed name's identifier, in input
order, to the position equal to its index in the input, through
`PositionMap.insert`'s move semantics: when every interning succeeds
(`internList` returns the identifiers `ids`) and the listed identifiers are
pairwise distinct, the call returns `ok`, the final position list is
exactly `ids` followed by the previously positioned but unlisted
identifiers in their prior relative order, each listed identifier's
position equals its index in the input, and the searchable payload is
`ids`.  The concrete `(title, body)` scenario is the witness theorem. -/
theorem update_searchable_reorders_positions
    (s : Schema) (data : List String) (ids : List FieldId) (fm' : FieldsMap)
    (hInv : PMInv s.indexed_position)
    (hcap : s.fields_map.names.length ≤ 65536)
    (hintern : internList s.fields_map data = Option.some (ids, fm'))
    (hnd : ids.Nodup) :
    (s.update_searchable data).1 = Except.ok () ∧
    (s.update_searchable data).2.indexed_position.pos_to_field
      = ids ++ s.indexed_position.pos_to_field.filter (fun x => !(ids.contains x)) ∧
    (∀ (k : Nat) (hk : k < ids.length),
      (s.update_searchable data).2.get_position (ids.get ⟨k, hk⟩) = Option.some k) ∧
    (s.update_searchable data).2.searchable = OptionAll.some ids := by
  have hb := (internList_bounds data s.fields_map ids fm' hcap hintern).1
  have hlen_ids : ids.length ≤ 65536 := nodup_bounded_length_le ids 65536 hnd hb
  have hgo := update_searchable_go_spec data s 0 [] ids fm' hintern
  have hmir := insertSeqPM_mirrors ids s.indexed_position [] s.indexed_position.pos_to_field
    hInv (by simp) hnd hb (fun i _ => List.not_mem_nil i) (by simpa using hlen_ids)
  simp only [List.length_nil] at hmir
  have hmir1 : (insertSeqPM s.indexed_position 0 ids).pos_to_field
      = ids ++ s.indexed_position.pos_to_field.filter (fun x => !(ids.contains x)) := by
    have h1 := hmir.1
    rw [foldl_erase_eq_filter ids s.indexed_position.pos_to_field hInv.1] at h1
    simpa using h1
  have hupd : s.update_searchable data
      = (Except.ok (), { s with
          fields_map := fm',
          searchable := OptionAll.some ids,
          indexed_position := insertSeqPM s.indexed_position 0 ids }) := by
    rw [Schema.update_searchable, hgo]
    simp
  rw [hupd]
  refine ⟨rfl, hmir1, ?_, rfl⟩
  intro k hk
  rw [Schema.get_position]
  show (insertSeqPM s.indexed_position 0 ids).fieldToPos (ids.get ⟨k, hk⟩) = Option.some k
  rw [pminv_fieldToPos_iff _ hmir.2, hmir1, List.getElem?_append, if_pos hk,
    List.getElem?_eq_getElem hk]
  rfl

/-- Witness for C2: the spec scenario.  On the empty schema,
`insert_with_position "title"` returns `(0, 0)`, `insert_with_position
"body"` returns `(1, 1)`, and after `update_searchable ["body"]` the
identifier of `"body"` sits at position `0` and the identifier of
`"title"` at position `1`. -/
theorem update_searchable_reorders_positions_witness :
    ((default : Schema).insert_with_position "title").1 = Except.ok (0, 0) ∧
    (((default : Schema).insert_with_position "title").2.insert_with_position "body").1
      = Except.ok (1, 1) ∧
    ((((default : Schema).insert_with_position "title").2.insert_with_position
        "body").2.update_searchable ["body"]).1 = Except.ok () ∧
    ((((default : Schema).insert_with_position "title").2.insert_with_position
        "body").2.update_searchable ["body"]).2.get_position 1 = Option.some 0 ∧
    ((((default : Schema).insert_with_position "title").2.insert_with_position
        "body").2.update_searchable ["body"]).2.get_position 0 = Option.some 1 := by
  have h := update_searchable_reorders_positions
    (((default : Schema).insert_with_position "title").2.insert_with_position "body").2
    ["body"] [1] ⟨["title", "body"]⟩ (by decide) (by decide) (by decide) (by decide)
  refine ⟨by decide, by decide, h.1, ?_, by decide⟩
  exact h.2.2.1 0 (by decide)

/-- C5 counterexample: with the searchable predicate in `All` mode, plain
interning (`Schema::insert`) of a brand-new field does NOT make it appear
in `searchable_attributes_str()`: the field becomes known (identifier `0`
is allocated and the name is in the interner), yet the result of
`searchable_attributes_str()` is empty, because under `All` the effective
searchable set is built from the position map, not from every known
field. -/
theorem searchable_all_known_field_cex :
    ((((default : Schema).set_all_fields_as_indexed).insert "new").1 = Except.ok 0) ∧
    (((default : Schema).set_all_fields_as_indexed).insert "new").2.is_searchable_all = true ∧
    ("new" ∈ (((default : Schema).set_all_fields_as_indexed).insert "new").2.fields_map.names) ∧
    (((default : Schema).set_all_fields_as_indexed).insert "new").2.searchable_attributes_str
      = [] := by
  decide

/-- C5 (amended): after `set_all_fields_as_indexed()`, a brand-new field
interned WITH a position (`insert_with_position`, the path used by
ingestion for newly observed fields) is immediately present in
`searchable_attributes_str()`: under `All` the effective searchable set is
every currently positioned field, recomputed on demand, so the wildcard
tracks fields positioned after the mode was set.  Plain interning via
`Schema::insert` does not suffice (see the counterexample). -/
theorem searchable_all_tracks_positioned (s : Schema) (name : String)
    (hfresh : name ∉ s.fields_map.names) (hcap : s.fields_map.names.length < 65536) :
    ((s.set_all_fields_as_indexed).insert_with_position name).1
      = Except.ok (s.fields_map.names.length, s.indexed_position.len % 65536) ∧
    name ∈ ((s.set_all_fields_as_indexed).insert_with_position name).2.searchable_attributes_str := by
  have hid : s.fields_map.id name = Option.none :=
    (fieldsMapIdAux_eq_none name s.fields_map.names 0).mpr hfresh
  have hins : s.fields_map.insert name
      = (Except.ok s.fields_map.names.length, ⟨s.fields_map.names ++ [name]⟩) := by
    simp only [FieldsMap.insert, hid, if_pos hcap]
  have hres : (s.set_all_fields_as_indexed).insert_with_position name
      = (Except.ok (s.fields_map.names.length, s.indexed_position.len % 65536),
         { s with
           fields_map := ⟨s.fields_map.names ++ [name]⟩,
           searchable := OptionAll.all,
           indexed_position := s.indexed_position.push s.fields_map.names.length }) := by
    simp only [Schema.set_all_fields_as_indexed, Schema.insert_with_position, Schema.insert,
      Schema.insert_position_last, hins]
  rw [hres]
  refine ⟨rfl, ?_⟩
  rw [Schema.searchable_attributes_str, Schema.searchable_attributes]
  simp only []
  refine List.mem_filterMap.mpr ⟨s.fields_map.names.length, ?_, ?_⟩
  · rw [PositionMap.field_pos, PositionMap.push]
    simp only []
    rw [enumPairs_keys]
    exact List.mem_append_right _ (by simp)
  · show FieldsMap.name ⟨s.fields_map.names ++ [name]⟩ s.fields_map.names.length
      = Option.some name
    rw [FieldsMap.name]
    exact List.getElem?_concat_length s.fields_map.names name

/-- Witness for the amended C5 statement at a concrete input. -/
theorem searchable_all_tracks_positioned_witness :
    (((default : Schema).set_all_fields_as_indexed).insert_with_position "fresh").1
      = Except.ok (0, 0) ∧
    "fresh" ∈ (((default : Schema).set_all_fields_as_indexed).insert_with_position
      "fresh").2.searchable_attributes_str := by
  have h := searchable_all_tracks_positioned default "fresh" (by decide) (by decide)
  exact ⟨h.1, h.2⟩

/-- C6: `update_searchable(["b","a"])` on the empty schema makes
`searchable_attributes_str()` return exactly `["b", "a"]` in that order; a
subsequent `update_searchable(["a"])` makes it return exactly `["a"]` and
`is_searchable_all()` false — and in general a successful
`update_searchable` always leaves the predicate in `Subset` mode
(the payload is replaced wholesale with the listed identifiers, as the C2
theorem's last conjunct states). -/
theorem update_searchable_replaces_payload :
    (((default : Schema).update_searchable ["b", "a"]).2.searchable_attributes_str
        = ["b", "a"] ∧
      ((((default : Schema).update_searchable ["b", "a"]).2.update_searchable
          ["a"]).2.searchable_attributes_str = ["a"] ∧
        ((((default : Schema).update_searchable ["b", "a"]).2.update_searchable
          ["a"]).2.is_searchable_all = false))) ∧
    (∀ (s r : Schema) (data : List String), s.update_searchable data = (Except.ok (), r) →
      r.is_searchable_all = false) := by
  constructor
  · exact ⟨by decide, by decide, by decide⟩
  · intro s r data h
    rcases update_searchable_go_subset data s 0 [] r () h with ⟨v, hv⟩
    rw [Schema.is_searchable_all, hv]
    rfl

/-- Witness for the universally quantified part of C6. -/
theorem update_searchable_replaces_payload_witness :
    ((default : Schema).update_searchable ["x"]).2.is_searchable_all = false :=
  update_searchable_replaces_payload.2 default
    ((default : Schema).update_searchable ["x"]).2 ["x"] (by decide)

/-- C7: when a primary key is already set, `set_primary_key` fails with the
primary-key-conflict error and returns the schema unchanged; concretely,
after `with_primary_key "id"`, `primary_key()` is `"id"`, a subsequent
`set_primary_key "other"` errors, and `primary_key()` is still `"id"`. -/
theorem set_primary_key_conflict_no_mutation :
    ((Schema.with_primary_key "id").primaryKey = Option.some "id" ∧
      ((Schema.with_primary_key "id").set_primary_key "other").1
        = Except.error Error.primaryKeyAlreadyPresent ∧
      ((Schema.with_primary_key "id").set_primary_key "other").2.primaryKey
        = Option.some "id") ∧
    (∀ (s : Schema) (name : String), s.primary_key.isSome = true →
      s.set_primary_key name = (Except.error Error.primaryKeyAlreadyPresent, s)) := by
  constructor
  · exact ⟨by decide, by decide, by decide⟩
  · intro s name h
    rw [Schema.set_primary_key, if_pos h]

/-- Witness for the universally quantified part of C7. -/
theorem set_primary_key_conflict_no_mutation_witness :
    (Schema.with_primary_key "pk").set_primary_key "other2"
      = (Except.error Error.primaryKeyAlreadyPresent, Schema.with_primary_key "pk") :=
  set_primary_key_conflict_no_mutation.2 (Schema.with_primary_key "pk") "other2" (by decide)

/-- C8: `update_displayed` with the empty list puts the displayed predicate
into the explicit-empty `Subset` state: afterwards `is_displayed` is false
for every identifier, `is_displayed_all()` is false, and
`displayed_names()` is empty — a reachable "hide everything" state distinct
from `All`. -/
theorem update_displayed_empty_hides_all (s : Schema) :
    (s.update_displayed []).2.displayed = OptionAll.some [] ∧
    (∀ id : FieldId, (s.update_displayed []).2.is_displayed id = false) ∧
    (s.update_displayed []).2.is_displayed_all = false ∧
    (s.update_displayed []).2.displayed_names = ∅ := by
  have hd : (s.update_displayed []).2 = { s with displayed := OptionAll.some [] } := by
    rw [Schema.update_displayed]
    simp only [OptionAll.take]
    cases s.displayed <;> rfl
  rw [hd]
  refine ⟨rfl, fun id => rfl, rfl, ?_⟩
  rw [Schema.displayed_names, Schema.displayedIds]
  rfl

/-- C9: starting from `Schema::default()` or `Schema::with_primary_key`,
no sequence of public schema operations leaves either visibility predicate
in the internal `OptionAll::None` state: the `None` branches of
`is_displayed`, the displayed-set reader and `searchable_attributes` are
unreachable through the public interface. -/
theorem optionAll_none_unreachable (ops : List SchemaOp) (s0 : Schema)
    (h0 : s0 = (default : Schema) ∨ ∃ n : String, s0 = Schema.with_primary_key n) :
    (applySchemaOps s0 ops).displayed ≠ OptionAll.none ∧
    (applySchemaOps s0 ops).searchable ≠ OptionAll.none := by
  have hgood : goodPreds s0 := by
    rcases h0 with h | ⟨n, h⟩
    · subst h
      exact ⟨by decide, by decide⟩
    · subst h
      rw [Schema.with_primary_key]
      rcases hins : FieldsMap.insert ⟨[]⟩ n with ⟨r, fm⟩
      cases r with
      | ok id =>
        exact ⟨fun hc => OptionAll.noConfusion hc, fun hc => OptionAll.noConfusion hc⟩
      | error e =>
        exact ⟨fun hc => OptionAll.noConfusion hc, fun hc => OptionAll.noConfusion hc⟩
  exact applySchemaOps_good ops s0 hgood

/-- Witness for C9 at a concrete operation sequence from the default
schema. -/
theorem optionAll_none_unreachable_witness :
    (applySchemaOps (default : Schema)
      [SchemaOp.update_displayed [], SchemaOp.update_searchable ["a"],
        SchemaOp.insert "b"]).displayed ≠ OptionAll.none ∧
    (applySchemaOps (default : Schema)
      [SchemaOp.update_displayed [], SchemaOp.update_searchable ["a"],
        SchemaOp.insert "b"]).searchable ≠ OptionAll.none :=
  optionAll_none_unreachable
    [SchemaOp.update_displayed [], SchemaOp.update_searchable ["a"], SchemaOp.insert "b"]
    (default : Schema) (Or.inl rfl)

/-- C10: `Schema::insert` (plain interning) changes at most the interner:
primary key, ranked set, displayed predicate, searchable predicate and
position map are all unchanged, and in particular no position is assigned
(`get_position` is unchanged for every identifier). -/
theorem insert_frame (s : Schema) (name : String) :
    (s.insert name).2.primary_key = s.primary_key ∧
    (s.insert name).2.ranked = s.ranked ∧
    (s.insert name).2.displayed = s.displayed ∧
    (s.insert name).2.searchable = s.searchable ∧
    (s.insert name).2.indexed_position = s.indexed_position ∧
    (∀ id : FieldId, (s.insert name).2.get_position id = s.get_position id) :=
  ⟨rfl, rfl, rfl, rfl, rfl, fun _ => rfl⟩
